import Mathlib

/-!
# Verification of the vanity-GPG fingerprint miner

Shallow embedding of the search/match/coordination engine of the miner
(`src/main.rs`): the pattern catalog (`generate_patterns`), the fixed-offset
fingerprint test (`PatternCache::contains`), the match registry
(`FOUND_KEYS.insert`), the progress-speed computation of `display_progress`,
and a small-step interleaving model of the parallel attempt loop `mine_keys`.
-/

namespace VanityMiner

set_option maxRecDepth 20000

/-! ## Byte-level string primitives

Rust `&str` indexing is by UTF-8 byte offset and panics when an offset is not a
character boundary.  We model a string as its list of characters and make the
byte arithmetic explicit; `none` models a panic. -/

/-- UTF-8 encoded size in bytes of one character (Rust `char::len_utf8`). -/
def utf8Size (c : Char) : Nat :=
  if c.val < 0x80 then 1
  else if c.val < 0x800 then 2
  else if c.val < 0x10000 then 3
  else 4

/-- Byte length of a string (Rust `str::len`). -/
def byteLen (s : String) : Nat := (s.toList.map utf8Size).sum

/-- Drop the first `n` bytes of a character list.  Returns `none` when `n` is
not a character boundary or exceeds the byte length (a Rust slicing panic). -/
def dropBytes : List Char → Nat → Option (List Char)
  | l, 0 => some l
  | [], _ + 1 => none
  | c :: rest, n + 1 =>
      if utf8Size c ≤ n + 1 then dropBytes rest (n + 1 - utf8Size c) else none

/-- Take the first `n` bytes of a character list; `none` on a non-boundary or
out-of-range request (a Rust slicing panic). -/
def takeBytes : List Char → Nat → Option (List Char)
  | _, 0 => some []
  | [], _ + 1 => none
  | c :: rest, n + 1 =>
      if utf8Size c ≤ n + 1 then (takeBytes rest (n + 1 - utf8Size c)).map (c :: ·)
      else none

/-- The byte-offset slice `&s[a..b]` of Rust: `none` models the panic cases. -/
def sliceBytes (l : List Char) (a b : Nat) : Option (List Char) :=
  if a ≤ b then (dropBytes l a).bind (fun l2 => takeBytes l2 (b - a)) else none

/-- All characters of a string are ASCII. -/
def AllAscii (s : String) : Prop := ∀ c ∈ s.toList, c.val < 0x80

instance (s : String) : Decidable (AllAscii s) := by
  unfold AllAscii; infer_instance

/-! ## The pattern catalog (`generate_patterns`, main.rs lines 100–141) -/

/-- The fixed list of 4-character hexspeak words of `generate_patterns`. -/
def HEX_WORDS : List String :=
  ["DEAD", "BEEF", "CAFE", "BABE", "FACE", "FEED", "F00D", "FADE", "ACE0",
   "BAD0", "DAD0", "DEAF", "DEED", "B00T", "C0DE", "1337", "D00M", "B105",
   "CA11", "0000", "1111", "2222", "3333", "4444", "5555", "6666", "7777",
   "8888", "9999", "AAAA", "BBBB", "CCCC", "DDDD", "EEEE", "FFFF", "A0A0",
   "B1B1", "C2C2", "D3D3", "E4E4", "F5F5", "0F0F", "1E1E", "2D2D", "3C3C",
   "4B4B", "5A5A"]

/-- The characters iterated by `"0123456789ABCDEF".chars()`. -/
def hexDigitChars : List Char := "0123456789ABCDEF".toList

/-- Rust `str::repeat`: the string repeated `n` times. -/
def strRepeat (s : String) (n : Nat) : String := String.join (List.replicate n s)

/-- Rust `chars().cycle().take(n).collect()`: the first `n` characters of the
infinite cyclic repetition of `l` (for `l ≠ []`, `n` copies always suffice). -/
def cycleTake (l : List Char) (n : Nat) : List Char :=
  ((List.replicate n l).flatten).take n

/-- The pattern vector built by `generate_patterns` before its final
`sort_unstable`/`dedup`, in push order: the full ordered cross product of
`HEX_WORDS` with itself, the three well-known literals, each hex digit repeated
eight times, each ordered pair of distinct hex digits repeated four times, and
the ascending and descending hex sequences truncated to eight characters. -/
def rawPatterns : List String :=
  (HEX_WORDS.flatMap (fun w1 => HEX_WORDS.map (fun w2 => w1 ++ w2)))
    ++ ["DEADBEEF", "CAFEBABE", "FEEDFACE"]
    ++ hexDigitChars.map (fun d => String.mk (List.replicate 8 d))
    ++ (hexDigitChars.flatMap (fun d1 =>
          (hexDigitChars.filter (fun d2 => d1 != d2)).map
            (fun d2 => strRepeat (String.mk [d1, d2]) 4)))
    ++ [String.mk (cycleTake hexDigitChars 8),
        String.mk (cycleTake "FEDCBA9876543210".toList 8)]

/-- Rust `Vec::dedup` on the tail of a vector: removes elements equal to their
immediate predecessor, keeping the first of each run. -/
def dedupAdjAux (prev : String) : List String → List String
  | [] => []
  | b :: rest => if b = prev then dedupAdjAux prev rest else b :: dedupAdjAux b rest

/-- Rust `Vec::dedup`: removes consecutive duplicate elements. -/
def dedupAdj : List String → List String
  | [] => []
  | a :: rest => a :: dedupAdjAux a rest

/-- `generate_patterns` (main.rs 100–141): the raw pattern vector, sorted by the
byte-lexicographic string order (`sort_unstable`), with consecutive duplicates
removed (`dedup`). -/
def generate_patterns : List String :=
  dedupAdj (rawPatterns.mergeSort (fun a b => decide (a ≤ b)))

/-! ## The fingerprint test (`PatternCache::contains`, main.rs 63–72) -/

/-- `PatternCache::contains`: if the fingerprint has at least 40 bytes, slice
bytes `[24, 32)` and test set membership, returning the matched section;
fingerprints shorter than 40 bytes never match.  The outer `Option` models a
Rust panic of the byte slicing (`none`); `some r` is the value returned. -/
def patternCacheContains (patterns : List String) (keyId : String) :
    Option (Option String) :=
  if 40 ≤ byteLen keyId then
    (sliceBytes keyId.toList 24 32).map (fun cs =>
      let targetSection := String.mk cs
      if targetSection ∈ patterns then some targetSection else none)
  else some none

/-! ## The match registry (`FOUND_KEYS : DashSet<String>`, main.rs 78 and 193) -/

/-- `DashSet::insert` as used at main.rs line 193: returns `true` and adds the
value iff it was absent; the set is otherwise unchanged. -/
def registryInsert (reg : List String) (f : String) : Bool × List String :=
  if f ∈ reg then (false, reg) else (true, f :: reg)

/-- The results of a sequence of `registryInsert` calls run in order. -/
def runInserts (reg : List String) : List String → List Bool
  | [] => []
  | f :: rest => (registryInsert reg f).1 :: runInserts (registryInsert reg f).2 rest

/-- The registry contents after a sequence of `registryInsert` calls. -/
def runInsertsReg (reg : List String) : List String → List String
  | [] => reg
  | f :: rest => runInsertsReg (registryInsert reg f).2 rest

/-! ## The displayed throughput (`display_progress`, main.rs 224–231) -/

/-- The speed computed by `display_progress`: `current / elapsed.as_secs()`
when at least one whole second has elapsed, else `0` (integer division). -/
def displaySpeed (current elapsedSecs : Nat) : Nat :=
  if 0 < elapsedSecs then current / elapsedSecs else 0

/-! ## Small-step model of the parallel attempt loop (`mine_keys`, main.rs 174–208)

`mine_keys` fans `total_keys` attempt slots over a worker pool.  Each slot runs
the closure of lines 185–203; the shared state consists of the two relaxed
atomic counters, the `FOUND_KEYS` registry, and the artifacts handed to
`save_key`.  We model a slot as a program counter positioned between the
closure's atomic accesses, and the run as an interleaving of single atomic
steps of the slots.  A slot carries its generation oracle: `none` means
`generate_key` would fail for this attempt, `some f` means it would succeed
with fingerprint `f` (generation itself is the external collaborator). -/

/-- Program counter of one attempt slot inside the worker closure. -/
inductive Pc where
  /-- before the budget check of line 186–189 -/
  | idle
  /-- budget check passed, about to call `generate_key` (line 191) -/
  | ready
  /-- generation succeeded with fingerprint `f`, about to run the pattern
  test of line 192 -/
  | haveKey (f : String)
  /-- `FOUND_KEYS.insert` returned true for `f` matching `pat`, about to run
  lines 194–198 (`keys_found.fetch_add` and `save_key`) -/
  | matched (f pat : String)
  /-- about to run `keys_checked.fetch_add(1)` (line 201) -/
  | bump
  /-- the byte slicing of `PatternCache::contains` panicked -/
  | panicked
  /-- slot finished; `counted` records whether it incremented `keys_checked` -/
  | done (counted : Bool)
deriving DecidableEq

/-- Label identifying which atomic action of the closure a step performs. -/
inductive Event where
  | budgetExit
  | budgetPass
  | genFail
  | genOk (f : String)
  | testMiss (f : String)
  | testPanic (f : String)
  | insertDup (f pat : String)
  | insertNew (f pat : String)
  | record (f pat : String)
  | countAttempt
deriving DecidableEq

/-- The shared state of a run plus the multiset of attempt slots (each slot is
its generation oracle paired with its program counter). -/
structure MineState where
  keysChecked : Nat
  keysFound : Nat
  foundKeys : List String
  saved : List (Nat × String × String)
  slots : Multiset (Option String × Pc)
deriving DecidableEq

/-- The configuration shared by all workers: the attempt budget and the
pattern catalog. -/
structure MineCfg where
  total : Nat
  patterns : List String

/-- Initial state: counters zero, registry empty, nothing saved, one idle slot
per attempt with its generation oracle. -/
def initState (oracles : List (Option String)) : MineState :=
  ⟨0, 0, [], [], ↑(oracles.map (fun o => (o, Pc.idle)))⟩

/-- One atomic step of one attempt slot (the closure of main.rs 185–203). -/
inductive MineStep (cfg : MineCfg) : MineState → Event → MineState → Prop
  /-- lines 186–189 with `current >= total_keys`: the slot is a no-op. -/
  | budgetExit (s : MineState) (o : Option String) (rest : Multiset (Option String × Pc))
      (hslot : s.slots = (o, Pc.idle) ::ₘ rest) (hge : cfg.total ≤ s.keysChecked) :
      MineStep cfg s Event.budgetExit { s with slots := (o, Pc.done false) ::ₘ rest }
  /-- lines 186–189 with `current < total_keys`: proceed to generation. -/
  | budgetPass (s : MineState) (o : Option String) (rest : Multiset (Option String × Pc))
      (hslot : s.slots = (o, Pc.idle) ::ₘ rest) (hlt : s.keysChecked < cfg.total) :
      MineStep cfg s Event.budgetPass { s with slots := (o, Pc.ready) ::ₘ rest }
  /-- line 191, `generate_key` returns `Err`: the attempt is silently
  discarded — nothing else changes, the slot just ends uncounted. -/
  | genFail (s : MineState) (rest : Multiset (Option String × Pc))
      (hslot : s.slots = (none, Pc.ready) ::ₘ rest) :
      MineStep cfg s Event.genFail { s with slots := (none, Pc.done false) ::ₘ rest }
  /-- line 191, `generate_key` returns `Ok` with fingerprint `f`. -/
  | genOk (s : MineState) (f : String) (rest : Multiset (Option String × Pc))
      (hslot : s.slots = (some f, Pc.ready) ::ₘ rest) :
      MineStep cfg s (Event.genOk f) { s with slots := (some f, Pc.haveKey f) ::ₘ rest }
  /-- line 192, the pattern test misses: skip to the attempt counter. -/
  | testMiss (s : MineState) (f : String) (o : Option String)
      (rest : Multiset (Option String × Pc))
      (hslot : s.slots = (o, Pc.haveKey f) ::ₘ rest)
      (htest : patternCacheContains cfg.patterns f = some none) :
      MineStep cfg s (Event.testMiss f) { s with slots := (o, Pc.bump) ::ₘ rest }
  /-- line 192, the byte slicing inside `PatternCache::contains` panics. -/
  | testPanic (s : MineState) (f : String) (o : Option String)
      (rest : Multiset (Option String × Pc))
      (hslot : s.slots = (o, Pc.haveKey f) ::ₘ rest)
      (htest : patternCacheContains cfg.patterns f = none) :
      MineStep cfg s (Event.testPanic f) { s with slots := (o, Pc.panicked) ::ₘ rest }
  /-- line 193, the pattern test hit but `FOUND_KEYS.insert` returns false
  (fingerprint already matched earlier): not a new match. -/
  | insertDup (s : MineState) (f pat : String) (o : Option String)
      (rest : Multiset (Option String × Pc))
      (hslot : s.slots = (o, Pc.haveKey f) ::ₘ rest)
      (htest : patternCacheContains cfg.patterns f = some (some pat))
      (hdup : f ∈ s.foundKeys) :
      MineStep cfg s (Event.insertDup f pat) { s with slots := (o, Pc.bump) ::ₘ rest }
  /-- line 193, `FOUND_KEYS.insert` returns true: a confirmed new match. -/
  | insertNew (s : MineState) (f pat : String) (o : Option String)
      (rest : Multiset (Option String × Pc))
      (hslot : s.slots = (o, Pc.haveKey f) ::ₘ rest)
      (htest : patternCacheContains cfg.patterns f = some (some pat))
      (hnew : f ∉ s.foundKeys) :
      MineStep cfg s (Event.insertNew f pat)
        { s with foundKeys := f :: s.foundKeys,
                 slots := (o, Pc.matched f pat) ::ₘ rest }
  /-- lines 194–198: `keys_found.fetch_add(1)` returns the pre-increment value,
  which is passed to `save_key` as the artifact index. -/
  | record (s : MineState) (f pat : String) (o : Option String)
      (rest : Multiset (Option String × Pc))
      (hslot : s.slots = (o, Pc.matched f pat) ::ₘ rest) :
      MineStep cfg s (Event.record f pat)
        { s with keysFound := s.keysFound + 1,
                 saved := s.saved ++ [(s.keysFound, f, pat)],
                 slots := (o, Pc.bump) ::ₘ rest }
  /-- line 201, `keys_checked.fetch_add(1)`. -/
  | countAttempt (s : MineState) (o : Option String)
      (rest : Multiset (Option String × Pc))
      (hslot : s.slots = (o, Pc.bump) ::ₘ rest) :
      MineStep cfg s Event.countAttempt
        { s with keysChecked := s.keysChecked + 1,
                 slots := (o, Pc.done true) ::ₘ rest }

/-- A state is an observation point of the run when some interleaving of slot
steps reaches it from the initial state. -/
def MineReach (cfg : MineCfg) (oracles : List (Option String)) (s : MineState) : Prop :=
  Relation.ReflTransGen (fun a b => ∃ e, MineStep cfg a e b) (initState oracles) s

/-- Number of slots whose increment of `keys_checked` has happened. -/
def doneTrueCount (s : MineState) : Nat :=
  Multiset.countP (fun x => x.2 = Pc.done true) s.slots

/-- Number of slots that are between the match bookkeeping and their increment
of `keys_checked` (program counter `bump`). -/
def bumpCount (s : MineState) : Nat :=
  Multiset.countP (fun x => x.2 = Pc.bump) s.slots

/-- Whether a slot is at a pending confirmed match on fingerprint `f`. -/
def isMatchedFp (f : String) : Option String × Pc → Bool
  | (_, Pc.matched g _) => g == f
  | _ => false

/-- Number of slots currently holding a confirmed new match on fingerprint `f`
whose `keys_found` increment is still pending. -/
def matchedCount (f : String) (s : MineState) : Nat :=
  Multiset.countP (fun x => isMatchedFp f x = true) s.slots

/-- The fingerprints of the artifacts handed to `save_key`, in record order. -/
def savedFps (s : MineState) : List String :=
  s.saved.map (fun e => e.2.1)

/-! ## Membership in the catalog -/

theorem mem_of_mem_dedupAdjAux {x prev : String} {l : List String} :
    x ∈ dedupAdjAux prev l → x ∈ l := by
  induction l generalizing prev with
  | nil => intro h; simp [dedupAdjAux] at h
  | cons b rest ih =>
    intro h
    rw [dedupAdjAux] at h
    by_cases hb : b = prev
    · rw [if_pos hb] at h
      exact List.mem_cons_of_mem _ (ih h)
    · rw [if_neg hb] at h
      rcases List.mem_cons.mp h with h1 | h2
      · exact h1 ▸ List.mem_cons_self _ _
      · exact List.mem_cons_of_mem _ (ih h2)

theorem mem_dedupAdjAux_of_mem {x prev : String} {l : List String} :
    x ∈ l → x = prev ∨ x ∈ dedupAdjAux prev l := by
  induction l generalizing prev with
  | nil => intro h; simp at h
  | cons b rest ih =>
    intro h
    rw [dedupAdjAux]
    by_cases hb : b = prev
    · rw [if_pos hb]
      rcases List.mem_cons.mp h with h1 | h2
      · exact Or.inl (h1.trans hb)
      · exact ih h2
    · rw [if_neg hb]
      rcases List.mem_cons.mp h with h1 | h2
      · exact Or.inr (h1 ▸ List.mem_cons_self _ _)
      · rcases @ih b h2 with h3 | h3
        · exact Or.inr (h3 ▸ List.mem_cons_self _ _)
        · exact Or.inr (List.mem_cons_of_mem _ h3)

/-- `Vec::dedup` preserves membership. -/
theorem mem_dedupAdj {x : String} {l : List String} : x ∈ dedupAdj l ↔ x ∈ l := by
  cases l with
  | nil => simp [dedupAdj]
  | cons a rest =>
    rw [dedupAdj]
    constructor
    · intro h
      rcases List.mem_cons.mp h with h1 | h2
      · exact h1 ▸ List.mem_cons_self _ _
      · exact List.mem_cons_of_mem _ (mem_of_mem_dedupAdjAux h2)
    · intro h
      rcases List.mem_cons.mp h with h1 | h2
      · exact h1 ▸ List.mem_cons_self _ _
      · rcases @mem_dedupAdjAux_of_mem x a rest h2 with h3 | h3
        · exact h3 ▸ List.mem_cons_self _ _
        · exact List.mem_cons_of_mem _ h3

/-- Sorting and removing consecutive duplicates leaves exactly the members of
the raw pattern vector in the catalog. -/
theorem mem_generate_patterns {x : String} :
    x ∈ generate_patterns ↔ x ∈ rawPatterns := by
  rw [generate_patterns, mem_dedupAdj]
  exact (List.mergeSort_perm rawPatterns _).mem_iff

/-! ## Byte slicing on ASCII strings -/

theorem utf8Size_eq_one {c : Char} (h : c.val < 0x80) : utf8Size c = 1 := by
  rw [utf8Size, if_pos h]

theorem byteLen_list_ascii {l : List Char} (h : ∀ c ∈ l, c.val < 0x80) :
    (l.map utf8Size).sum = l.length := by
  induction l with
  | nil => rfl
  | cons c rest ih =>
    simp only [List.map_cons, List.sum_cons, List.length_cons,
      utf8Size_eq_one (h c (List.mem_cons_self _ _)),
      ih (fun d hd => h d (List.mem_cons_of_mem _ hd))]
    omega

/-- On an all-ASCII string the Rust byte length is the character count. -/
theorem byteLen_ascii {s : String} (h : AllAscii s) : byteLen s = s.toList.length :=
  byteLen_list_ascii h

theorem dropBytes_ascii {l : List Char} (h : ∀ c ∈ l, c.val < 0x80) {n : Nat}
    (hn : n ≤ l.length) : dropBytes l n = some (l.drop n) := by
  induction l generalizing n with
  | nil =>
    simp only [List.length_nil, Nat.le_zero] at hn
    subst hn
    rfl
  | cons c rest ih =>
    cases n with
    | zero => rfl
    | succ m =>
      rw [dropBytes, utf8Size_eq_one (h c (List.mem_cons_self _ _))]
      rw [if_pos (by omega)]
      simp only [Nat.add_sub_cancel, List.drop_succ_cons]
      exact ih (fun d hd => h d (List.mem_cons_of_mem _ hd))
        (by simpa using Nat.succ_le_succ_iff.mp hn)

theorem takeBytes_ascii {l : List Char} (h : ∀ c ∈ l, c.val < 0x80) {n : Nat}
    (hn : n ≤ l.length) : takeBytes l n = some (l.take n) := by
  induction l generalizing n with
  | nil =>
    simp only [List.length_nil, Nat.le_zero] at hn
    subst hn
    rfl
  | cons c rest ih =>
    cases n with
    | zero => rfl
    | succ m =>
      rw [takeBytes, utf8Size_eq_one (h c (List.mem_cons_self _ _))]
      rw [if_pos (by omega)]
      simp only [Nat.add_sub_cancel, List.take_succ_cons]
      rw [ih (fun d hd => h d (List.mem_cons_of_mem _ hd))
        (by simpa using Nat.succ_le_succ_iff.mp hn)]
      rfl

/-- On an all-ASCII character list, byte slicing is plain `drop`/`take` and
never panics while the bounds are in range. -/
theorem sliceBytes_ascii {l : List Char} (h : ∀ c ∈ l, c.val < 0x80) {a b : Nat}
    (hab : a ≤ b) (hb : b ≤ l.length) :
    sliceBytes l a b = some ((l.drop a).take (b - a)) := by
  rw [sliceBytes, if_pos hab, dropBytes_ascii h (le_trans hab hb)]
  exact takeBytes_ascii (fun d hd => h d (List.mem_of_mem_drop hd))
    (by simp; omega)

/-- `PatternCache::contains` on an all-ASCII fingerprint: no panic is possible
and the test reduces to a character-offset window check. -/
theorem patternCacheContains_ascii (patterns : List String) {f : String}
    (h : AllAscii f) :
    patternCacheContains patterns f =
      if 40 ≤ f.toList.length then
        some (if String.mk ((f.toList.drop 24).take 8) ∈ patterns
              then some (String.mk ((f.toList.drop 24).take 8)) else none)
      else some none := by
  rw [patternCacheContains, byteLen_ascii h]
  by_cases hlen : 40 ≤ f.toList.length
  · rw [if_pos hlen, if_pos hlen,
      sliceBytes_ascii h (by omega) (by omega), Option.map_some']
  · rw [if_neg hlen, if_neg hlen]

/-! ## The run invariant -/

/-- Program counters that guarantee the slot's generation succeeded: reaching
any of them requires having passed `generate_key` with `Ok`. -/
def pcCounted : Pc → Prop
  | Pc.haveKey _ => True
  | Pc.matched _ _ => True
  | Pc.bump => True
  | Pc.panicked => True
  | Pc.done c => c = true
  | Pc.idle => False
  | Pc.ready => False

/-- Invariant of every reachable state of `mine_keys`. -/
structure Inv (total : Nat) (s : MineState) : Prop where
  /-- the number of attempt slots is fixed -/
  card_slots : Multiset.card s.slots = total
  /-- `keys_checked` counts exactly the slots whose line-201 increment ran -/
  checked_eq : s.keysChecked = doneTrueCount s
  /-- `keys_found` counts exactly the artifacts handed to `save_key` -/
  found_eq : s.keysFound = s.saved.length
  /-- artifact indices are `0, 1, …` in record order -/
  saved_idx : s.saved.map Prod.fst = List.range s.saved.length
  /-- `keys_found` can exceed `keys_checked` only by the slots still between
  their match bookkeeping and their `keys_checked` increment -/
  found_le : s.keysFound ≤ s.keysChecked + bumpCount s
  /-- the registry holds no duplicates -/
  fk_nodup : s.foundKeys.Nodup
  /-- every saved fingerprint is registered -/
  saved_mem : ∀ f ∈ savedFps s, f ∈ s.foundKeys
  /-- no fingerprint is saved twice -/
  saved_nodup : (savedFps s).Nodup
  /-- a pending match is registered and not yet saved -/
  matched_ok : ∀ x ∈ s.slots, ∀ f pat, x.2 = Pc.matched f pat →
      f ∈ s.foundKeys ∧ f ∉ savedFps s
  /-- at most one slot holds a pending match on a given fingerprint -/
  matched_once : ∀ f, matchedCount f s ≤ 1
  /-- slots past a successful generation carry a fingerprint oracle -/
  oracle_some : ∀ x ∈ s.slots, pcCounted x.2 → x.1.isSome = true

theorem isMatchedFp_eq_false {g : String} {o : Option String} {p : Pc}
    (h : ∀ f pat, p ≠ Pc.matched f pat) : isMatchedFp g (o, p) = false := by
  cases p <;> first | rfl | exact absurd rfl (h _ _)

theorem isMatchedFp_true {g : String} {x : Option String × Pc} :
    isMatchedFp g x = true ↔ ∃ pat, x.2 = Pc.matched g pat := by
  obtain ⟨o, p⟩ := x
  cases p <;> simp [isMatchedFp]

theorem inv_init {total : Nat} {oracles : List (Option String)}
    (hlen : oracles.length = total) : Inv total (initState oracles) := by
  have hmem : ∀ x ∈ (initState oracles).slots, x.2 = Pc.idle := by
    intro x hx
    rw [initState, Multiset.mem_coe, List.mem_map] at hx
    obtain ⟨o, _, rfl⟩ := hx
    rfl
  refine ⟨?_, ?_, rfl, rfl, ?_, List.nodup_nil, ?_, List.nodup_nil, ?_, ?_, ?_⟩
  · rw [initState, Multiset.coe_card, List.length_map, hlen]
  · refine (Multiset.countP_eq_zero.mpr ?_).symm
    intro x hx
    rw [hmem x hx]
    simp
  · exact Nat.zero_le _
  · intro f hf
    simp [savedFps, initState] at hf
  · intro x hx f pat hxm
    rw [hmem x hx] at hxm
    cases hxm
  · intro f
    rw [matchedCount, Multiset.countP_eq_zero.mpr ?_]
    · exact Nat.zero_le 1
    · intro x hx
      rw [isMatchedFp_eq_false (by rw [hmem x hx]; intro f' pat' h; cases h)]
      simp
  · intro x hx hc
    rw [hmem x hx] at hc
    cases hc

theorem inv_swap {total : Nat} {s : MineState} (hinv : Inv total s)
    {o : Option String} {p1 p2 : Pc} {rest : Multiset (Option String × Pc)}
    (hslot : s.slots = (o, p1) ::ₘ rest)
    (h1d : p1 ≠ Pc.done true) (h1b : p1 ≠ Pc.bump)
    (h1m : ∀ f pat, p1 ≠ Pc.matched f pat)
    (h2d : p2 ≠ Pc.done true) (h2b : p2 ≠ Pc.bump)
    (h2m : ∀ f pat, p2 ≠ Pc.matched f pat)
    (hos : pcCounted p2 → o.isSome = true) :
    Inv total { s with slots := (o, p2) ::ₘ rest } := by
  obtain ⟨hcard, hchk, hfnd, hidx, hle, hnd, hsm, hsn, hmo, hm1, ho⟩ := hinv
  rw [hslot] at hcard
  rw [doneTrueCount, hslot, Multiset.countP_cons, if_neg h1d] at hchk
  rw [bumpCount, hslot, Multiset.countP_cons, if_neg h1b] at hle
  refine ⟨?_, ?_, hfnd, hidx, ?_, hnd, hsm, hsn, ?_, ?_, ?_⟩
  · rw [Multiset.card_cons] at hcard ⊢
    exact hcard
  · rw [doneTrueCount, Multiset.countP_cons, if_neg h2d]
    exact hchk
  · rw [bumpCount, Multiset.countP_cons, if_neg h2b]
    simpa using hle
  · intro x hx f pat hxm
    rcases Multiset.mem_cons.mp hx with rfl | hx'
    · exact absurd hxm (h2m f pat)
    · exact hmo x (hslot ▸ Multiset.mem_cons_of_mem hx') f pat hxm
  · intro g
    have h1 := hm1 g
    rw [matchedCount, hslot, Multiset.countP_cons] at h1
    rw [isMatchedFp_eq_false h1m] at h1
    rw [matchedCount, Multiset.countP_cons, isMatchedFp_eq_false h2m]
    simpa using h1
  · intro x hx hc
    rcases Multiset.mem_cons.mp hx with rfl | hx'
    · exact hos hc
    · exact ho x (hslot ▸ Multiset.mem_cons_of_mem hx') hc

theorem inv_to_bump {total : Nat} {s : MineState} (hinv : Inv total s)
    {o : Option String} {f : String} {rest : Multiset (Option String × Pc)}
    (hslot : s.slots = (o, Pc.haveKey f) ::ₘ rest) :
    Inv total { s with slots := (o, Pc.bump) ::ₘ rest } := by
  obtain ⟨hcard, hchk, hfnd, hidx, hle, hnd, hsm, hsn, hmo, hm1, ho⟩ := hinv
  rw [hslot] at hcard
  rw [doneTrueCount, hslot, Multiset.countP_cons] at hchk
  rw [bumpCount, hslot, Multiset.countP_cons] at hle
  refine ⟨?_, ?_, hfnd, hidx, ?_, hnd, hsm, hsn, ?_, ?_, ?_⟩
  · rw [Multiset.card_cons] at hcard ⊢
    exact hcard
  · rw [doneTrueCount, Multiset.countP_cons]
    simpa using hchk
  · rw [bumpCount, Multiset.countP_cons]
    simp only [if_pos rfl]
    simp at hle
    omega
  · intro x hx g pat hxm
    rcases Multiset.mem_cons.mp hx with rfl | hx'
    · cases hxm
    · exact hmo x (hslot ▸ Multiset.mem_cons_of_mem hx') g pat hxm
  · intro g
    have h1 := hm1 g
    rw [matchedCount, hslot, Multiset.countP_cons] at h1
    rw [matchedCount, Multiset.countP_cons]
    simp [isMatchedFp] at h1 ⊢
    exact h1
  · intro x hx hc
    rcases Multiset.mem_cons.mp hx with rfl | hx'
    · exact ho (o, Pc.haveKey f) (hslot ▸ Multiset.mem_cons_self _ _) trivial
    · exact ho x (hslot ▸ Multiset.mem_cons_of_mem hx') hc

theorem inv_insertNew {total : Nat} {s : MineState} (hinv : Inv total s)
    {o : Option String} {f pat : String} {rest : Multiset (Option String × Pc)}
    (hslot : s.slots = (o, Pc.haveKey f) ::ₘ rest)
    (hnew : f ∉ s.foundKeys) :
    Inv total { s with foundKeys := f :: s.foundKeys,
                       slots := (o, Pc.matched f pat) ::ₘ rest } := by
  obtain ⟨hcard, hchk, hfnd, hidx, hle, hnd, hsm, hsn, hmo, hm1, ho⟩ := hinv
  rw [hslot] at hcard
  rw [doneTrueCount, hslot, Multiset.countP_cons] at hchk
  rw [bumpCount, hslot, Multiset.countP_cons] at hle
  refine ⟨?_, ?_, hfnd, hidx, ?_, ?_, ?_, hsn, ?_, ?_, ?_⟩
  · rw [Multiset.card_cons] at hcard ⊢
    exact hcard
  · rw [doneTrueCount, Multiset.countP_cons]
    simpa using hchk
  · rw [bumpCount, Multiset.countP_cons]
    simp only [if_neg (by simp : ¬ ((o, Pc.matched f pat).2 = Pc.bump))]
    simpa using hle
  · exact List.nodup_cons.mpr ⟨hnew, hnd⟩
  · intro g hg
    exact List.mem_cons_of_mem _ (hsm g hg)
  · intro x hx g pat' hxm
    rcases Multiset.mem_cons.mp hx with rfl | hx'
    · rw [Pc.matched.injEq] at hxm
      obtain ⟨rfl, rfl⟩ := hxm
      exact ⟨List.mem_cons_self _ _, fun hgs => hnew (hsm _ hgs)⟩
    · have h2 := hmo x (hslot ▸ Multiset.mem_cons_of_mem hx') g pat' hxm
      exact ⟨List.mem_cons_of_mem _ h2.1, h2.2⟩
  · intro g
    rw [matchedCount, Multiset.countP_cons]
    by_cases hg : f = g
    · subst hg
      have hz : Multiset.countP (fun x => isMatchedFp f x = true) rest = 0 := by
        refine Multiset.countP_eq_zero.mpr ?_
        intro x hx hmx
        obtain ⟨pat', hp⟩ := isMatchedFp_true.mp hmx
        exact hnew ((hmo x (hslot ▸ Multiset.mem_cons_of_mem hx) f pat' hp).1)
      rw [hz]
      simp [isMatchedFp]
    · have h1 := hm1 g
      rw [matchedCount, hslot, Multiset.countP_cons,
        if_neg (by simp [isMatchedFp])] at h1
      rw [if_neg (by simp [isMatchedFp, hg])]
      simpa using h1
  · intro x hx hc
    rcases Multiset.mem_cons.mp hx with rfl | hx'
    · exact ho (o, Pc.haveKey f) (hslot ▸ Multiset.mem_cons_self _ _) trivial
    · exact ho x (hslot ▸ Multiset.mem_cons_of_mem hx') hc

theorem inv_record {total : Nat} {s : MineState} (hinv : Inv total s)
    {o : Option String} {f pat : String} {rest : Multiset (Option String × Pc)}
    (hslot : s.slots = (o, Pc.matched f pat) ::ₘ rest) :
    Inv total { s with keysFound := s.keysFound + 1,
                       saved := s.saved ++ [(s.keysFound, f, pat)],
                       slots := (o, Pc.bump) ::ₘ rest } := by
  obtain ⟨hcard, hchk, hfnd, hidx, hle, hnd, hsm, hsn, hmo, hm1, ho⟩ := hinv
  have hself : (o, Pc.matched f pat) ∈ s.slots := hslot ▸ Multiset.mem_cons_self _ _
  have hfin : f ∈ s.foundKeys := (hmo _ hself f pat rfl).1
  have hfns : f ∉ savedFps s := (hmo _ hself f pat rfl).2
  rw [hslot] at hcard
  rw [doneTrueCount, hslot, Multiset.countP_cons] at hchk
  rw [bumpCount, hslot, Multiset.countP_cons, if_neg (by simp)] at hle
  refine ⟨?_, ?_, ?_, ?_, ?_, hnd, ?_, ?_, ?_, ?_, ?_⟩
  · rw [Multiset.card_cons] at hcard ⊢
    exact hcard
  · rw [doneTrueCount, Multiset.countP_cons]
    simpa using hchk
  · simp [hfnd]
  · simp only [List.map_append, List.length_append, List.map_cons, List.map_nil,
      List.length_cons, List.length_nil, hidx, hfnd, List.range_succ]
  · dsimp only
    rw [bumpCount, Multiset.countP_cons, if_pos rfl]
    omega
  · intro g hg
    simp only [savedFps, List.map_append, List.map_cons, List.map_nil] at hg
    rcases List.mem_append.mp hg with hg1 | hg2
    · exact hsm g hg1
    · rw [List.mem_singleton] at hg2
      exact hg2 ▸ hfin
  · simp only [savedFps, List.map_append, List.map_cons, List.map_nil]
    rw [List.nodup_append]
    refine ⟨hsn, List.nodup_singleton _, ?_⟩
    intro a ha haf
    rw [List.mem_singleton] at haf
    exact hfns (haf ▸ ha)
  · intro x hx g pat' hxm
    rcases Multiset.mem_cons.mp hx with rfl | hx'
    · cases hxm
    · have h2 := hmo x (hslot ▸ Multiset.mem_cons_of_mem hx') g pat' hxm
      have hgf : g ≠ f := by
        intro hgf
        subst hgf
        have hpos : 0 < Multiset.countP (fun y => isMatchedFp g y = true) rest :=
          Multiset.countP_pos.mpr ⟨x, hx', isMatchedFp_true.mpr ⟨pat', hxm⟩⟩
        have h1 := hm1 g
        rw [matchedCount, hslot, Multiset.countP_cons,
          if_pos (by simp [isMatchedFp])] at h1
        omega
      refine ⟨h2.1, ?_⟩
      simp only [savedFps, List.map_append, List.map_cons, List.map_nil]
      rw [List.mem_append, List.mem_singleton]
      rintro (hg1 | hg2)
      · exact h2.2 hg1
      · exact hgf hg2
  · intro g
    have h1 := hm1 g
    rw [matchedCount, hslot, Multiset.countP_cons] at h1
    rw [matchedCount, Multiset.countP_cons, if_neg (by simp [isMatchedFp])]
    omega
  · intro x hx hc
    rcases Multiset.mem_cons.mp hx with rfl | hx'
    · exact ho (o, Pc.matched f pat) hself trivial
    · exact ho x (hslot ▸ Multiset.mem_cons_of_mem hx') hc

theorem inv_countAttempt {total : Nat} {s : MineState} (hinv : Inv total s)
    {o : Option String} {rest : Multiset (Option String × Pc)}
    (hslot : s.slots = (o, Pc.bump) ::ₘ rest) :
    Inv total { s with keysChecked := s.keysChecked + 1,
                       slots := (o, Pc.done true) ::ₘ rest } := by
  obtain ⟨hcard, hchk, hfnd, hidx, hle, hnd, hsm, hsn, hmo, hm1, ho⟩ := hinv
  have hself : (o, Pc.bump) ∈ s.slots := hslot ▸ Multiset.mem_cons_self _ _
  rw [hslot] at hcard
  rw [doneTrueCount, hslot, Multiset.countP_cons, if_neg (by simp)] at hchk
  rw [bumpCount, hslot, Multiset.countP_cons, if_pos rfl] at hle
  refine ⟨?_, ?_, hfnd, hidx, ?_, hnd, hsm, hsn, ?_, ?_, ?_⟩
  · rw [Multiset.card_cons] at hcard ⊢
    exact hcard
  · dsimp only
    rw [doneTrueCount, Multiset.countP_cons, if_pos rfl]
    omega
  · dsimp only
    rw [bumpCount, Multiset.countP_cons, if_neg (by simp)]
    omega
  · intro x hx g pat' hxm
    rcases Multiset.mem_cons.mp hx with rfl | hx'
    · cases hxm
    · exact hmo x (hslot ▸ Multiset.mem_cons_of_mem hx') g pat' hxm
  · intro g
    have h1 := hm1 g
    rw [matchedCount, hslot, Multiset.countP_cons,
      if_neg (by simp [isMatchedFp])] at h1
    rw [matchedCount, Multiset.countP_cons, if_neg (by simp [isMatchedFp])]
    omega
  · intro x hx hc
    rcases Multiset.mem_cons.mp hx with rfl | hx'
    · exact ho (o, Pc.bump) hself trivial
    · exact ho x (hslot ▸ Multiset.mem_cons_of_mem hx') hc

/-- Every atomic step of `mine_keys` preserves the run invariant. -/
theorem inv_step {cfg : MineCfg} {s s' : MineState} {e : Event}
    (hstep : MineStep cfg s e s') (hinv : Inv cfg.total s) : Inv cfg.total s' := by
  cases hstep with
  | budgetExit o rest hslot hge =>
      refine inv_swap hinv hslot ?_ ?_ ?_ ?_ ?_ ?_ ?_
      · simp
      · simp
      · intro f pat h; cases h
      · simp
      · simp
      · intro f pat h; cases h
      · intro hc; simp [pcCounted] at hc
  | budgetPass o rest hslot hlt =>
      refine inv_swap hinv hslot ?_ ?_ ?_ ?_ ?_ ?_ ?_
      · simp
      · simp
      · intro f pat h; cases h
      · simp
      · simp
      · intro f pat h; cases h
      · intro hc; simp [pcCounted] at hc
  | genFail rest hslot =>
      refine inv_swap hinv hslot ?_ ?_ ?_ ?_ ?_ ?_ ?_
      · simp
      · simp
      · intro f pat h; cases h
      · simp
      · simp
      · intro f pat h; cases h
      · intro hc; simp [pcCounted] at hc
  | genOk f rest hslot =>
      refine inv_swap hinv hslot ?_ ?_ ?_ ?_ ?_ ?_ ?_
      · simp
      · simp
      · intro f' pat h; cases h
      · simp
      · simp
      · intro f' pat h; cases h
      · intro _; rfl
  | testMiss f o rest hslot htest => exact inv_to_bump hinv hslot
  | testPanic f o rest hslot htest =>
      refine inv_swap hinv hslot ?_ ?_ ?_ ?_ ?_ ?_ ?_
      · simp
      · simp
      · intro f' pat h; cases h
      · simp
      · simp
      · intro f' pat h; cases h
      · exact fun _ =>
          hinv.oracle_some (o, Pc.haveKey f) (hslot ▸ Multiset.mem_cons_self _ _) trivial
  | insertDup f pat o rest hslot htest hdup => exact inv_to_bump hinv hslot
  | insertNew f pat o rest hslot htest hnew => exact inv_insertNew hinv hslot hnew
  | record f pat o rest hslot => exact inv_record hinv hslot
  | countAttempt o rest hslot => exact inv_countAttempt hinv hslot

/-- The run invariant holds at every observation point. -/
theorem inv_reachable {cfg : MineCfg} {oracles : List (Option String)} {s : MineState}
    (hlen : oracles.length = cfg.total) (h : MineReach cfg oracles s) :
    Inv cfg.total s := by
  induction h with
  | refl => exact inv_init hlen
  | tail _ hbc ih =>
      obtain ⟨e, hstep⟩ := hbc
      exact inv_step hstep ih

/-! ## A concrete run: one attempt that matches, and one failing generation -/

/-- A 40-character fingerprint whose bytes `[24, 32)` read `DEADBEEF`. -/
def fpWit : String := "000000000000000000000000DEADBEEF00000000"

/-- A one-attempt configuration using the real catalog. -/
def mineCfg1 : MineCfg := ⟨1, generate_patterns⟩

theorem contains_fpWit :
    patternCacheContains generate_patterns fpWit = some (some "DEADBEEF") := by
  rw [patternCacheContains_ascii _ (by decide), if_pos (by decide)]
  rw [(by decide : String.mk ((fpWit.toList.drop 24).take 8) = "DEADBEEF")]
  rw [if_pos (mem_generate_patterns.mpr (by decide))]

def mineS0 : MineState := initState [some fpWit]

def mineS1 : MineState := ⟨0, 0, [], [], {(some fpWit, Pc.ready)}⟩

def mineS2 : MineState := ⟨0, 0, [], [], {(some fpWit, Pc.haveKey fpWit)}⟩

def mineS3 : MineState :=
  ⟨0, 0, [fpWit], [], {(some fpWit, Pc.matched fpWit "DEADBEEF")}⟩

def mineS4 : MineState :=
  ⟨0, 1, [fpWit], [(0, fpWit, "DEADBEEF")], {(some fpWit, Pc.bump)}⟩

def mineS5 : MineState :=
  ⟨1, 1, [fpWit], [(0, fpWit, "DEADBEEF")], {(some fpWit, Pc.done true)}⟩

theorem step01 : MineStep mineCfg1 mineS0 Event.budgetPass mineS1 :=
  MineStep.budgetPass mineS0 (some fpWit) 0 rfl (by decide)

theorem step12 : MineStep mineCfg1 mineS1 (Event.genOk fpWit) mineS2 :=
  MineStep.genOk mineS1 fpWit 0 rfl

theorem step23 : MineStep mineCfg1 mineS2 (Event.insertNew fpWit "DEADBEEF") mineS3 :=
  MineStep.insertNew mineS2 fpWit "DEADBEEF" (some fpWit) 0 rfl contains_fpWit
    (by simp [mineS2])

theorem step34 : MineStep mineCfg1 mineS3 (Event.record fpWit "DEADBEEF") mineS4 :=
  MineStep.record mineS3 fpWit "DEADBEEF" (some fpWit) 0 rfl

theorem step45 : MineStep mineCfg1 mineS4 Event.countAttempt mineS5 :=
  MineStep.countAttempt mineS4 (some fpWit) 0 rfl

/-- Between the `keys_found` and `keys_checked` increments of a matching
attempt, the state `mineS4` (one match recorded, zero attempts counted) is a
reachable observation point. -/
theorem reach_mineS4 : MineReach mineCfg1 [some fpWit] mineS4 :=
  Relation.ReflTransGen.head ⟨_, step01⟩ (Relation.ReflTransGen.head ⟨_, step12⟩
    (Relation.ReflTransGen.head ⟨_, step23⟩ (Relation.ReflTransGen.head ⟨_, step34⟩
      Relation.ReflTransGen.refl)))

/-- The completed one-attempt run. -/
theorem reach_mineS5 : MineReach mineCfg1 [some fpWit] mineS5 :=
  Relation.ReflTransGen.tail reach_mineS4 ⟨_, step45⟩

def failS0 : MineState := initState [none]

def failS1 : MineState := ⟨0, 0, [], [], {((none : Option String), Pc.ready)}⟩

def failS2 : MineState := ⟨0, 0, [], [], {((none : Option String), Pc.done false)}⟩

theorem stepF01 : MineStep mineCfg1 failS0 Event.budgetPass failS1 :=
  MineStep.budgetPass failS0 none 0 rfl (by decide)

theorem stepF12 : MineStep mineCfg1 failS1 Event.genFail failS2 :=
  MineStep.genFail failS1 0 rfl

theorem reach_failS2 : MineReach mineCfg1 [none] failS2 :=
  Relation.ReflTransGen.head ⟨_, stepF01⟩
    (Relation.ReflTransGen.head ⟨_, stepF12⟩ Relation.ReflTransGen.refl)

/-! ## Reference catalog from the specification text -/

/-- Reference construction following the spec's algorithm (§4.1 steps 1–5)
word for word: (1) every ordered pair concatenation of the fixed 4-character
word list with itself, a full cross product including a word with itself;
(2) the small fixed list of well-known 8-character literals; (3) for every
single hex digit, that digit repeated 8 times; (4) for every ordered pair of
distinct hex digits, the 2-character pair repeated 4 times; (5) the ascending
and the descending hex sequences, each truncated to 8 characters, cycling if
needed. -/
def specCatalogSteps : List String :=
  (HEX_WORDS.flatMap (fun w1 => HEX_WORDS.map (fun w2 => w1 ++ w2)))
    ++ ["DEADBEEF", "CAFEBABE", "FEEDFACE"]
    ++ hexDigitChars.map (fun d => String.mk (List.replicate 8 d))
    ++ (hexDigitChars.flatMap (fun d1 => hexDigitChars.flatMap (fun d2 =>
          if d1 ≠ d2 then [strRepeat (String.mk [d1, d2]) 4] else [])))
    ++ [String.mk (cycleTake hexDigitChars 8),
        String.mk (cycleTake "FEDCBA9876543210".toList 8)]

/-- Reference catalog following the spec: steps 1–5, then step 6 deduplicates
(ordering is irrelevant to the semantics of a set lookup). -/
def specCatalogReference : List String := specCatalogSteps.dedup

/-- The code's distinct-pair component (a `filter` inside the iteration) lists
exactly the spec's step-4 strings in the same order. -/
theorem pairRepeats_eq :
    (hexDigitChars.flatMap (fun d1 =>
        (hexDigitChars.filter (fun d2 => d1 != d2)).map
          (fun d2 => strRepeat (String.mk [d1, d2]) 4)))
    = (hexDigitChars.flatMap (fun d1 => hexDigitChars.flatMap (fun d2 =>
        if d1 ≠ d2 then [strRepeat (String.mk [d1, d2]) 4] else []))) := by decide

/-- The vector built by the code before sorting equals the spec's steps 1–5
verbatim, element for element. -/
theorem rawPatterns_eq_specSteps : rawPatterns = specCatalogSteps := by
  unfold rawPatterns specCatalogSteps
  rw [pairRepeats_eq]

/-! ## Registry helper lemmas -/

theorem runInserts_mem (reg : List String) (f : String) (hf : f ∈ reg) (m : Nat) :
    runInserts reg (List.replicate m f) = List.replicate m false := by
  induction m with
  | zero => rfl
  | succ k ih =>
    rw [List.replicate_succ, runInserts, registryInsert, if_pos hf]
    rw [List.replicate_succ]
    exact congrArg (false :: ·) ih

theorem runInsertsReg_mono (calls : List String) (reg : List String) (g : String)
    (hg : g ∈ reg) : g ∈ runInsertsReg reg calls := by
  induction calls generalizing reg with
  | nil => exact hg
  | cons c rest ih =>
    rw [runInsertsReg]
    refine ih _ ?_
    rw [registryInsert]
    split
    · exact hg
    · exact List.mem_cons_of_mem _ hg

/-! ## The claims -/

/-- C1 (counterexample): the claim "matches-found ≤ attempts-completed at every
observation point" is false on the code.  `mine_keys` increments `keys_found`
(line 194) before `keys_checked` (line 201), so the reachable state `mineS4` of
a one-attempt run observes matches-found = 1 while attempts-completed = 0. -/
theorem C1_counterexample :
    MineReach mineCfg1 [some fpWit] mineS4
    ∧ ¬ (mineS4.keysFound ≤ mineS4.keysChecked) :=
  ⟨reach_mineS4, by decide⟩

/-- C1 (amended): at every observation point, matches-found is at most
attempts-completed plus the number of workers that are between their match
bookkeeping and their own `keys_checked` increment (program counter `bump`);
in particular matches-found ≤ attempts-completed whenever no worker is in that
window, e.g. at run completion. -/
theorem C1_found_le_checked_plus_pending (cfg : MineCfg)
    (oracles : List (Option String)) (s : MineState)
    (hlen : oracles.length = cfg.total) (h : MineReach cfg oracles s) :
    s.keysFound ≤ s.keysChecked + bumpCount s :=
  (inv_reachable hlen h).found_le

/-- C1 witness: the amended bound evaluated on the concrete reachable state
`mineS4` (1 ≤ 0 + 1). -/
theorem C1_witness : mineS4.keysFound ≤ mineS4.keysChecked + bumpCount mineS4 :=
  C1_found_le_checked_plus_pending mineCfg1 [some fpWit] mineS4 rfl reach_mineS4

/-- C2: for every all-ASCII fingerprint `f`, the pattern test returns
`Some p` iff `f` has at least 40 characters and the substring at offsets
`[24, 32)` is in the catalog, in which case `p` is that substring; otherwise
it returns `None` (and never panics). -/
theorem C2_pattern_test (f : String) (h : AllAscii f) :
    (∀ p : String,
      patternCacheContains generate_patterns f = some (some p)
        ↔ 40 ≤ f.toList.length ∧ p = String.mk ((f.toList.drop 24).take 8)
            ∧ String.mk ((f.toList.drop 24).take 8) ∈ generate_patterns)
    ∧ (patternCacheContains generate_patterns f = some none
        ↔ ¬ (40 ≤ f.toList.length
              ∧ String.mk ((f.toList.drop 24).take 8) ∈ generate_patterns)) := by
  rw [patternCacheContains_ascii _ h]
  by_cases hlen : 40 ≤ f.toList.length
  · rw [if_pos hlen]
    by_cases hmem : String.mk ((f.toList.drop 24).take 8) ∈ generate_patterns
    · rw [if_pos hmem]
      constructor
      · intro p
        constructor
        · intro hp
          simp only [Option.some_inj] at hp
          exact ⟨hlen, hp.symm, hmem⟩
        · rintro ⟨-, rfl, -⟩
          rfl
      · constructor
        · intro hp
          exact absurd (Option.some_inj.mp hp) (Option.some_ne_none _)
        · intro hcon
          exact absurd ⟨hlen, hmem⟩ hcon
    · rw [if_neg hmem]
      constructor
      · intro p
        constructor
        · intro hp
          simp only [Option.some_inj] at hp
          exact absurd hp.symm (Option.some_ne_none _)
        · rintro ⟨-, -, hm⟩
          exact absurd hm hmem
      · constructor
        · intro _ hcon
          exact hmem hcon.2
        · intro _
          rfl
  · rw [if_neg hlen]
    constructor
    · intro p
      constructor
      · intro hp
        simp only [Option.some_inj] at hp
        exact absurd hp.symm (Option.some_ne_none _)
      · rintro ⟨hl, -, -⟩
        exact absurd hl hlen
    · constructor
      · intro _ hcon
        exact hlen hcon.1
      · intro _
        rfl

/-- C2 witness: the characterization evaluated at the concrete 40-character
fingerprint `fpWit`. -/
theorem C2_witness :
    (∀ p : String,
      patternCacheContains generate_patterns fpWit = some (some p)
        ↔ 40 ≤ fpWit.toList.length
            ∧ p = String.mk ((fpWit.toList.drop 24).take 8)
            ∧ String.mk ((fpWit.toList.drop 24).take 8) ∈ generate_patterns)
    ∧ (patternCacheContains generate_patterns fpWit = some none
        ↔ ¬ (40 ≤ fpWit.toList.length
              ∧ String.mk ((fpWit.toList.drop 24).take 8) ∈ generate_patterns)) :=
  C2_pattern_test fpWit (by decide)

/-- C3: at every observation point the artifact indices handed to `save_key`
are exactly `0, 1, …, m − 1` in record order (no gaps, strictly increasing
from 0), `m` equals the matches-found counter, and the `m` saved fingerprints
are pairwise distinct. -/
theorem C3_artifact_indices (cfg : MineCfg) (oracles : List (Option String))
    (s : MineState) (hlen : oracles.length = cfg.total)
    (h : MineReach cfg oracles s) :
    s.saved.map Prod.fst = List.range s.saved.length
    ∧ s.keysFound = s.saved.length
    ∧ (savedFps s).Nodup := by
  have i := inv_reachable hlen h
  exact ⟨i.saved_idx, i.found_eq, i.saved_nodup⟩

/-- C3 witness: the index set evaluated on the concrete run that saved one
artifact, `[(0, fpWit, DEADBEEF)]`. -/
theorem C3_witness :
    mineS4.saved.map Prod.fst = List.range mineS4.saved.length
    ∧ mineS4.keysFound = mineS4.saved.length
    ∧ (savedFps mineS4).Nodup :=
  C3_artifact_indices mineCfg1 [some fpWit] mineS4 rfl reach_mineS4

/-- Characters 0–9 or A–F (the claim's notion of a hexadecimal character). -/
def isUpperHexDigit (c : Char) : Bool := c.isDigit || ('A' ≤ c && c ≤ 'F')

/-- C4 (counterexample): the claim "every element of the catalog is an
8-character hexadecimal string" is false: `B00TB00T` (from hexspeak word
`B00T`) is in the catalog and contains the non-hex letter `T`. -/
theorem C4_counterexample :
    "B00TB00T" ∈ generate_patterns
    ∧ ¬ (∀ c ∈ "B00TB00T".toList, isUpperHexDigit c = true) :=
  ⟨mem_generate_patterns.mpr (by decide), by decide⟩

/-- Characters that occur in catalog patterns: hex digits plus the hexspeak
letters `M` (from `D00M`) and `T` (from `B00T`). -/
def isPatternChar (c : Char) : Bool :=
  c.isDigit || ('A' ≤ c && c ≤ 'F') || c == 'M' || c == 'T'

/-- C4 (amended): every element of the built catalog is a fixed-length
8-character string, and each character is a hex digit (0–9, A–F) or one of the
hexspeak letters `M`, `T`. -/
theorem C4_catalog_shape :
    ∀ p ∈ generate_patterns,
      p.toList.length = 8 ∧ ∀ c ∈ p.toList, isPatternChar c = true := by
  intro p hp
  have hraw : p ∈ rawPatterns := mem_generate_patterns.mp hp
  have hall : rawPatterns.all
      (fun q => q.toList.length == 8 && q.toList.all isPatternChar) = true := by
    decide
  rw [List.all_eq_true] at hall
  have h2 := hall p hraw
  rw [Bool.and_eq_true, beq_iff_eq, List.all_eq_true] at h2
  exact ⟨h2.1, fun c hc => h2.2 c hc⟩

/-- C4 witness: the amended shape evaluated at the catalog member
`DEADBEEF`. -/
theorem C4_witness :
    "DEADBEEF".toList.length = 8
    ∧ ∀ c ∈ "DEADBEEF".toList, isPatternChar c = true :=
  C4_catalog_shape "DEADBEEF" (mem_generate_patterns.mpr (by decide))

/-- C5: the catalog construction is deterministic (a pure function of no
inputs) and, as a set, equals the reference definition built from the spec's
construction steps 1–6: cross product of the word list, fixed literals, digit
runs, distinct-pair repeats, ascending and descending sequences, with
duplicates removed. -/
theorem C5_catalog_matches_spec :
    ∀ x : String, x ∈ generate_patterns ↔ x ∈ specCatalogReference := by
  intro x
  rw [mem_generate_patterns, specCatalogReference, List.mem_dedup,
    rawPatterns_eq_specSteps]

/-- C6: `FOUND_KEYS.insert` returns true iff the exact fingerprint value was
not inserted before: an insert of an absent value returns true, an insert of a
present value returns false, a run of `n ≥ 1` inserts of the same absent value
yields exactly one true, the registry only grows under any call sequence, and
no step of the mining loop ever removes a registered fingerprint. -/
theorem C6_registry_insert (reg : List String) (f : String) (n : Nat)
    (h1 : f ∉ reg) (hn : 1 ≤ n) :
    (registryInsert reg f).1 = true
    ∧ (∀ (reg2 : List String) (g : String), g ∈ reg2 →
        (registryInsert reg2 g).1 = false)
    ∧ (runInserts reg (List.replicate n f)).count true = 1
    ∧ (∀ calls : List String, ∀ g ∈ reg, g ∈ runInsertsReg reg calls)
    ∧ (∀ (cfg : MineCfg) (s : MineState) (e : Event) (s' : MineState),
        MineStep cfg s e s' → ∀ g ∈ s.foundKeys, g ∈ s'.foundKeys) := by
  refine ⟨?_, ?_, ?_, ?_, ?_⟩
  · rw [registryInsert, if_neg h1]
  · intro reg2 g hg
    rw [registryInsert, if_pos hg]
  · obtain ⟨m, rfl⟩ : ∃ m, n = m + 1 := ⟨n - 1, by omega⟩
    rw [List.replicate_succ, runInserts, registryInsert, if_neg h1]
    dsimp only
    rw [runInserts_mem _ _ (List.mem_cons_self f reg), List.count_cons]
    simp [List.count_replicate]
  · intro calls g hg
    exact runInsertsReg_mono calls reg g hg
  · intro cfg s e s' hstep g hg
    cases hstep <;> first
      | exact hg
      | exact List.mem_cons_of_mem _ hg

/-- C6 witness: the registry contract evaluated at the concrete registry
`[X]`, fingerprint `A`, two insert calls. -/
theorem C6_witness :
    (registryInsert ["X"] "A").1 = true
    ∧ (∀ (reg2 : List String) (g : String), g ∈ reg2 →
        (registryInsert reg2 g).1 = false)
    ∧ (runInserts ["X"] (List.replicate 2 "A")).count true = 1
    ∧ (∀ calls : List String, ∀ g ∈ ["X"], g ∈ runInsertsReg ["X"] calls)
    ∧ (∀ (cfg : MineCfg) (s : MineState) (e : Event) (s' : MineState),
        MineStep cfg s e s' → ∀ g ∈ s.foundKeys, g ∈ s'.foundKeys) :=
  C6_registry_insert ["X"] "A" 2 (by decide) (by decide)

/-- C7: at every observation point (in particular at run completion) the
number of attempt slots is exactly `total_keys` and attempts-completed never
exceeds `total_keys`: each slot increments the counter at most once. -/
theorem C7_budget_bound (cfg : MineCfg) (oracles : List (Option String))
    (s : MineState) (hlen : oracles.length = cfg.total)
    (h : MineReach cfg oracles s) :
    Multiset.card s.slots = cfg.total ∧ s.keysChecked ≤ cfg.total := by
  have i := inv_reachable hlen h
  refine ⟨i.card_slots, ?_⟩
  calc s.keysChecked = doneTrueCount s := i.checked_eq
    _ ≤ Multiset.card s.slots := Multiset.countP_le_card _ _
    _ = cfg.total := i.card_slots

/-- C7 witness: the budget bound evaluated on the completed one-attempt run
(1 slot, 1 ≤ 1). -/
theorem C7_witness :
    Multiset.card mineS5.slots = mineCfg1.total
    ∧ mineS5.keysChecked ≤ mineCfg1.total :=
  C7_budget_bound mineCfg1 [some fpWit] mineS5 rfl reach_mineS5

/-- C8: a generation failure is silently discarded: the failing step changes
neither counter, nor the registry, nor the saved artifacts (so no pattern
test, no insertion, no persistence happen for it), and it never aborts the
run; moreover attempts-completed counts exactly the slots that completed a
successful generation (every counted slot carries a fingerprint oracle). -/
theorem C8_generation_failure :
    (∀ (cfg : MineCfg) (s s' : MineState), MineStep cfg s Event.genFail s' →
      s'.keysChecked = s.keysChecked ∧ s'.keysFound = s.keysFound
      ∧ s'.foundKeys = s.foundKeys ∧ s'.saved = s.saved)
    ∧ (∀ (cfg : MineCfg) (oracles : List (Option String)) (s : MineState),
        oracles.length = cfg.total → MineReach cfg oracles s →
        s.keysChecked = doneTrueCount s
        ∧ ∀ x ∈ s.slots, x.2 = Pc.done true → x.1.isSome = true) := by
  constructor
  · intro cfg s s' hstep
    cases hstep
    exact ⟨rfl, rfl, rfl, rfl⟩
  · intro cfg oracles s hlen h
    have i := inv_reachable hlen h
    refine ⟨i.checked_eq, fun x hx hxd => i.oracle_some x hx ?_⟩
    rw [hxd]
    exact rfl

/-- C8 witness: the discard property evaluated on the concrete failing
generation step from `failS1` to `failS2`, and the counting property on the
resulting reachable state. -/
theorem C8_witness :
    (failS2.keysChecked = failS1.keysChecked
      ∧ failS2.keysFound = failS1.keysFound
      ∧ failS2.foundKeys = failS1.foundKeys ∧ failS2.saved = failS1.saved)
    ∧ (failS2.keysChecked = doneTrueCount failS2
      ∧ ∀ x ∈ failS2.slots, x.2 = Pc.done true → x.1.isSome = true) :=
  ⟨C8_generation_failure.1 mineCfg1 failS1 failS2 stepF12,
   C8_generation_failure.2 mineCfg1 [none] failS2 rfl reach_failS2⟩

/-- C9 (counterexample): the claimed formula "throughput =
attempts-completed / max(1, elapsed whole seconds)" is false before one
second has elapsed: with 5 attempts and 0 elapsed seconds the code displays 0
while the formula gives 5. -/
theorem C9_counterexample :
    displaySpeed 5 0 = 0 ∧ 5 / max 1 0 = 5 ∧ displaySpeed 5 0 ≠ 5 / max 1 0 := by
  decide

/-- C9 (amended): once at least one whole second has elapsed the displayed
throughput is attempts-completed integer-divided by the elapsed whole seconds
(which then coincides with the max(1, ·) formula), and zero is displayed until
one whole second has elapsed. -/
theorem C9_displayed_speed (current elapsedSecs : Nat) :
    (0 < elapsedSecs →
      displaySpeed current elapsedSecs = current / max 1 elapsedSecs
      ∧ displaySpeed current elapsedSecs = current / elapsedSecs)
    ∧ (elapsedSecs = 0 → displaySpeed current elapsedSecs = 0) := by
  constructor
  · intro h
    rw [displaySpeed, if_pos h, Nat.max_eq_right h]
    exact ⟨rfl, rfl⟩
  · intro h
    rw [displaySpeed, if_neg (by omega)]

/-- C9 witness: the amended formula evaluated at 7 attempts after 2 seconds
(displays 3) and after 0 seconds (displays 0). -/
theorem C9_witness :
    (displaySpeed 7 2 = 7 / max 1 2 ∧ displaySpeed 7 2 = 7 / 2)
    ∧ displaySpeed 7 0 = 0 :=
  ⟨(C9_displayed_speed 7 2).1 (by decide), (C9_displayed_speed 7 0).2 rfl⟩

/-- C10: the pattern test never panics on an all-ASCII input: whenever the
length is at least 40 the byte offsets 24 and 32 fall on character
boundaries, so `PatternCache::contains` is total under the ASCII
precondition, for any catalog. -/
theorem C10_no_panic_on_ascii (patterns : List String) (f : String)
    (h : AllAscii f) : (patternCacheContains patterns f).isSome = true := by
  rw [patternCacheContains_ascii _ h]
  by_cases hlen : 40 ≤ f.toList.length
  · rw [if_pos hlen]
    rfl
  · rw [if_neg hlen]
    rfl

/-- C10 witness: totality evaluated at the concrete fingerprint `fpWit` with
the real catalog. -/
theorem C10_witness : (patternCacheContains generate_patterns fpWit).isSome = true :=
  C10_no_panic_on_ascii generate_patterns fpWit (by decide)

end VanityMiner
